import Mathlib

set_option linter.unusedVariables false

/-- Python atomic hashable values appearing in this repository: strings
(as lists of characters), integers, and floats (modelled as rationals). -/
inductive PyAtom where
  | str : List Char → PyAtom
  | int : Int → PyAtom
  | float : Rat → PyAtom
deriving DecidableEq

/-- Elements of a Python tuple used as part of a composite key: either an
atomic value or a flat tuple of atomic values (an n-gram feature). -/
inductive PyVal where
  | atom : PyAtom → PyVal
  | tup : List PyAtom → PyVal
deriving DecidableEq

/-- Any Python object used as a dictionary key in SparseWeightVector:
an atomic value or a tuple of elements. -/
inductive PyObj where
  | atom : PyAtom → PyObj
  | tup : List PyVal → PyObj
deriving DecidableEq

/-- Association list modelling the dict inside defaultdict(float):
insertion-ordered; keys are unique in every state the source code reaches. -/
abbrev Weights := List (PyObj × Rat)

/-- Plain dict lookup: the value stored at key k, if present. -/
def lookupW : Weights → PyObj → Option Rat
  | [], _ => none
  | kv :: rest, k => if kv.1 = k then some kv.2 else lookupW rest k

/-- Dict assignment d[k] = v: overwrite in place if present, else append. -/
def setW : Weights → PyObj → Rat → Weights
  | [], k, v => [(k, v)]
  | kv :: rest, k, v => if kv.1 = k then (k, v) :: rest else kv :: setW rest k v

/-- Read d[k] on a defaultdict(float): returns the stored value, materializing
the key with 0.0 when absent (the read grows the key set). -/
def readW (d : Weights) (k : PyObj) : Rat × Weights :=
  match lookupW d k with
  | some v => (v, d)
  | none => (0, d ++ [(k, 0)])

/-- Observational weight at a key: the stored value, or the 0.0 default. -/
def getD0 (d : Weights) (k : PyObj) : Rat := (lookupW d k).getD 0

/-- Keys of the dict, in insertion order. -/
def keysW (d : Weights) : List PyObj := d.map Prod.fst

/-- One iteration of the merge loops of __add__/__sub__ and of the += 1.0
update in code_phi: d[k] := f (d[k]) v, with a materializing read. -/
def entryStep (f : Rat → Rat → Rat) (d : Weights) (kv : PyObj × Rat) : Weights :=
  let p := readW d kv.1
  setW p.2 kv.1 (f p.1 kv.2)

/-- ASCII whitespace recognised by Python str.split: space, tab, newline,
carriage return, vertical tab, form feed. -/
def isWs (c : Char) : Bool :=
  c == ' ' || c == '\t' || c == '\n' || c == '\r' || c == '\x0b' || c == '\x0c'

/-- Tokenizer loop of str.split(): accumulates the current token reversed. -/
def splitWsAux : List Char → List Char → List (List Char)
  | [], [] => []
  | [], a :: as => [(a :: as).reverse]
  | c :: rest, acc =>
    if isWs c then
      match acc with
      | [] => splitWsAux rest []
      | a :: as => (a :: as).reverse :: splitWsAux rest []
    else splitWsAux rest (c :: acc)

/-- Python str.split() with no separator argument: split on runs of
whitespace, discarding empty tokens. -/
def splitWs (s : List Char) : List (List Char) := splitWsAux s []

/-- Python ' '.join: interleave a single space between the given strings. -/
def joinSpace : List (List Char) → List Char
  | [] => []
  | [t] => t
  | t :: ts => t ++ ' ' :: joinSpace ts

/-- Decimal digit character for n < 10. -/
def digitChar (n : Nat) : Char := Char.ofNat (48 + n)

/-- Fuel-driven most-significant-first decimal digit accumulator. -/
def natDigitsAux : Nat → Nat → List Char → List Char
  | 0, _, acc => acc
  | _ + 1, 0, acc => acc
  | fuel + 1, n + 1, acc =>
    natDigitsAux fuel ((n + 1) / 10) (digitChar ((n + 1) % 10) :: acc)

/-- Decimal digits of a natural number, most significant digit first. -/
def natDigits (n : Nat) : List Char := if n = 0 then ['0'] else natDigitsAux n n []

/-- Number of fractional digits needed to write a rational exactly in
decimal: the least k with den dividing 10 ^ k, when one exists. -/
def fracLen (den : Nat) : Option Nat :=
  (List.range (den + 1)).find? (fun k => decide (den ∣ 10 ^ k))

/-- Models Python str(...) on a float: the exact decimal rendering for values
with a finite decimal expansion, always keeping at least one integer and one
fractional digit, e.g. 2 renders as 2.0 and -1/2 as -0.5. Scientific
notation for extreme magnitudes is not modelled. -/
def strFloat (q : Rat) : List Char :=
  match fracLen q.den with
  | none => ['0', '.', '0']
  | some k =>
    let m := q.num.natAbs * 10 ^ k / q.den
    let ds0 := natDigits m
    let ds := if ds0.length ≤ k then List.replicate (k + 1 - ds0.length) '0' ++ ds0 else ds0
    let ip := ds.take (ds.length - k)
    let fp0 := ds.drop (ds.length - k)
    let fp := if fp0.isEmpty then ['0'] else fp0
    (if q.num < 0 then ['-'] else []) ++ ip ++ '.' :: fp

/-- Digits-to-number accumulator, positional base 10. -/
def digitsToNat (s : List Char) : Nat := s.foldl (fun n c => 10 * n + (c.toNat - 48)) 0

/-- Models Python float(...) on an unsigned plain decimal literal: digits
with at most one point and at least one digit overall. -/
def parseUnsigned (s : List Char) : Option Rat :=
  match s.splitOn '.' with
  | [ds] =>
    if !ds.isEmpty && ds.all Char.isDigit then some ((digitsToNat ds : Rat)) else none
  | [ip, fp] =>
    if (!ip.isEmpty || !fp.isEmpty) && ip.all Char.isDigit && fp.all Char.isDigit then
      some ((digitsToNat ip : Rat) + (digitsToNat fp : Rat) / (10 ^ fp.length : Rat))
    else none
  | _ => none

/-- Models Python float(...) on plain signed decimal literals; exponents,
inf/nan, underscores and surrounding whitespace are not modelled (load only
ever feeds it whitespace-free tokens). -/
def parseFloat (s : List Char) : Option Rat :=
  match s with
  | '-' :: rest => (parseUnsigned rest).map (fun q => -q)
  | '+' :: rest => parseUnsigned rest
  | _ => parseUnsigned s

/-- The sparse weight vector of the source: a defaultdict(float) from
composite keys to weights (SparseWeightVector.__init__). -/
structure SparseWeightVector where
  weights : Weights
deriving DecidableEq

/-- Source __call__: w(x_key, y_key) reads self.weights[(x_key, y_key)],
materializing an absent key with 0.0. -/
def SparseWeightVector.call (w : SparseWeightVector) (x y : PyVal) :
    Rat × SparseWeightVector :=
  let p := readW w.weights (PyObj.tup [x, y])
  (p.1, ⟨p.2⟩)

/-- Loop of the source dot: sums self.weights[(x_key, y_key)] over the list,
threading the materializing reads through the dict state. -/
def dotAux : Weights → List PyVal → PyVal → Rat × Weights
  | d, [], _ => (0, d)
  | d, x :: xs, y =>
    let p := readW d (PyObj.tup [x, y])
    let r := dotAux p.2 xs y
    (p.1 + r.1, r.2)

/-- Source dot: w . Phi(x, y), the sum of the weights of (x_key, y_key) over
all x_key in xvec_keys; repeated x_keys each contribute. -/
def SparseWeightVector.dot (w : SparseWeightVector) (xs : List PyVal) (y : PyVal) :
    Rat × SparseWeightVector :=
  let r := dotAux w.weights xs y
  (r.1, ⟨r.2⟩)

/-- Source code_phi: builds a fresh vector and runs w[(xkey, ykey)] += 1.0
over the list, so repeated symbols accumulate counts. -/
def SparseWeightVector.code_phi (xs : List PyVal) (y : PyVal) : SparseWeightVector :=
  ⟨xs.foldl (fun d x => entryStep (fun a b => a + b) d (PyObj.tup [x, y], 1)) []⟩

/-- Python tuple(key) and list(key): succeed on tuples (identity) and on
strings (tuple of 1-character strings); raise TypeError (none) on the
non-iterable atoms int and float. -/
def pyTupleOf : PyObj → Option (List PyVal)
  | .tup xs => some xs
  | .atom (.str s) => some (s.map (fun c => PyVal.atom (PyAtom.str [c])))
  | .atom (.int _) => none
  | .atom (.float _) => none

/-- Source __getitem__: w[key] reads self.weights[tuple(key)], materializing;
none models the TypeError that tuple(key) raises on a non-iterable key. -/
def SparseWeightVector.getitem (w : SparseWeightVector) (key : PyObj) :
    Option (Rat × SparseWeightVector) :=
  (pyTupleOf key).map (fun xs =>
    let p := readW w.weights (PyObj.tup xs)
    (p.1, (⟨p.2⟩ : SparseWeightVector)))

/-- Source __setitem__: w[key] = value stores under the key exactly as given
(no tuple conversion), never failing. -/
def SparseWeightVector.setitem (w : SparseWeightVector) (key : PyObj) (v : Rat) :
    SparseWeightVector :=
  ⟨setW w.weights key v⟩

/-- Source __add__: copy self.weights, then for every (key, value) of other
run weights[key] += value; returns a new vector. -/
def SparseWeightVector.add (a b : SparseWeightVector) : SparseWeightVector :=
  ⟨b.weights.foldl (entryStep (fun u v => u + v)) a.weights⟩

/-- Source __sub__: copy self.weights, then for every (key, value) of other
run weights[key] -= value; returns a new vector. -/
def SparseWeightVector.sub (a b : SparseWeightVector) : SparseWeightVector :=
  ⟨b.weights.foldl (entryStep (fun u v => u - v)) a.weights⟩

/-- One iteration of the __truediv__ loop: weights[key] /= scalar, which
raises ZeroDivisionError (none) when the scalar is zero. -/
def divStep (s : Rat) (d : Weights) (kv : PyObj × Rat) : Option Weights :=
  if s = 0 then none
  else
    let p := readW d kv.1
    some (setW p.2 kv.1 (p.1 / s))

/-- Source __truediv__: copy self.weights and divide the value at every key
of self by the scalar; the first executed division by zero aborts the whole
operation, so an empty vector is never divided at all. -/
def SparseWeightVector.truediv (w : SparseWeightVector) (s : Rat) :
    Option SparseWeightVector :=
  (w.weights.foldlM (divStep s) w.weights).map (fun d => (⟨d⟩ : SparseWeightVector))

/-- One line of the source load loop: split on whitespace, parse the last
token with float(), and use the tuple of all earlier tokens as the key; none
models both the IndexError on a token-free line and the ValueError of
float() on a non-numeric last token. -/
def parseLineKV (line : List Char) : Option (PyObj × Rat) :=
  match splitWs line with
  | [] => none
  | f :: rest =>
    match parseFloat ((f :: rest).getLastD []) with
    | none => none
    | some v =>
      some (PyObj.tup (((f :: rest).dropLast).map (fun s => PyVal.atom (PyAtom.str s))), v)

/-- Line loop of the source load: stores each parsed line in order and stops
with failure at the first bad line, keeping what was stored before it. -/
def loadAux : List (List Char) → Weights → Weights × Bool
  | [], d => (d, true)
  | line :: rest, d =>
    match parseLineKV line with
    | none => (d, false)
    | some kv => loadAux rest (setW d kv.1 kv.2)

/-- Source load: resets self.weights to a fresh empty dict, then runs the
line loop; the Bool records whether every line parsed (false models the
exception propagating to the caller). -/
def SparseWeightVector.load (w : SparseWeightVector) (lines : List (List Char)) :
    SparseWeightVector × Bool :=
  let r := loadAux lines []
  (⟨r.1⟩, r.2)

/-- Requirement of ' '.join on each element of list(key): only actual strings
are accepted; an int, a float or a nested tuple raises TypeError. -/
def asStr : PyVal → Option (List Char)
  | .atom (.str s) => some s
  | _ => none

/-- list(key) of one save loop iteration followed by the join type check. -/
def strComponents (k : PyObj) : Option (List (List Char)) :=
  (pyTupleOf k).bind (fun xs => xs.mapM asStr)

/-- One line of the source save loop: ' '.join(list(key) + [str(value)]). -/
def saveLine (kv : PyObj × Rat) : Option (List Char) :=
  (strComponents kv.1).map (fun ss => joinSpace (ss ++ [strFloat kv.2]))

/-- Source save: one joined line per stored entry, in dict order; none models
the TypeError raised by join when a key component is not a string. -/
def SparseWeightVector.save (w : SparseWeightVector) : Option (List (List Char)) :=
  w.weights.mapM saveLine

/-- Observational get result at a composite key: the stored weight or the
0.0 default (the state effect of the materializing read set aside). -/
def SparseWeightVector.weightAt (w : SparseWeightVector) (k : PyObj) : Rat :=
  getD0 w.weights k

/-- A load line the source fails on: no whitespace tokens at all (IndexError
on fields[-1]) or a last token that float() rejects (ValueError). -/
def malformedLine (l : List Char) : Bool :=
  match splitWs l with
  | [] => true
  | f :: rest => (parseFloat ((f :: rest).getLastD [])).isNone

/-- Store the result of one good line (helper for stating what load keeps). -/
def setParsed (d : Weights) (l : List Char) : Weights :=
  match parseLineKV l with
  | some kv => setW d kv.1 kv.2
  | none => d

/-- A serialization token that survives the join/split round trip: nonempty
and free of whitespace. -/
def okToken (s : List Char) : Bool := !s.isEmpty && s.all (fun c => !isWs c)

/-- Keys of the round-trippable shape: a pair of atomic whitespace-free
nonempty strings. -/
def atomicStrKey : PyObj → Bool
  | .tup [PyVal.atom (PyAtom.str x), PyVal.atom (PyAtom.str y)] => okToken x && okToken y
  | _ => false

/-- Looking a key up right after setting it yields the assigned value. -/
theorem lookupW_setW_self (d : Weights) (k : PyObj) (v : Rat) :
    lookupW (setW d k v) k = some v := by
  induction d with
  | nil => simp [setW, lookupW]
  | cons kv rest ih =>
    by_cases h : kv.1 = k
    · simp [setW, h, lookupW]
    · simp [setW, h, lookupW, ih]

/-- Setting one key leaves every other key's stored value unchanged. -/
theorem lookupW_setW_ne (d : Weights) (k k2 : PyObj) (v : Rat) (h : k2 ≠ k) :
    lookupW (setW d k v) k2 = lookupW d k2 := by
  have h2 : ¬(k = k2) := fun e => h (Eq.symm e)
  induction d with
  | nil => simp [setW, lookupW, h2]
  | cons kv rest ih =>
    by_cases hk : kv.1 = k
    · simp only [setW, if_pos hk, lookupW]
      rw [if_neg h2, if_neg (by rw [hk]; exact h2)]
    · simp only [setW, if_neg hk, lookupW]
      by_cases hk2 : kv.1 = k2
      · rw [if_pos hk2, if_pos hk2]
      · rw [if_neg hk2, if_neg hk2, ih]

/-- A successful lookup is preserved by appending entries on the right. -/
theorem lookupW_append_of_some (d e : Weights) (k : PyObj) (v : Rat)
    (h : lookupW d k = some v) : lookupW (d ++ e) k = some v := by
  induction d with
  | nil => simp [lookupW] at h
  | cons kv rest ih =>
    simp only [lookupW, List.cons_append] at h ⊢
    by_cases hk : kv.1 = k
    · simpa [hk] using h
    · simp only [if_neg hk] at h ⊢
      exact ih h

/-- A failed lookup defers to the appended tail. -/
theorem lookupW_append_of_none (d e : Weights) (k : PyObj)
    (h : lookupW d k = none) : lookupW (d ++ e) k = lookupW e k := by
  induction d with
  | nil => simp
  | cons kv rest ih =>
    simp only [lookupW, List.cons_append] at h ⊢
    by_cases hk : kv.1 = k
    · simp [hk] at h
    · simp only [if_neg hk] at h ⊢
      exact ih h

/-- The value returned by a materializing read is the observational weight. -/
theorem readW_fst (d : Weights) (k : PyObj) : (readW d k).1 = getD0 d k := by
  unfold readW getD0
  cases h : lookupW d k <;> simp [h]

/-- A materializing read changes no observational weight, at any key. -/
theorem getD0_readW_snd (d : Weights) (k k2 : PyObj) :
    getD0 (readW d k).2 k2 = getD0 d k2 := by
  unfold readW
  cases h : lookupW d k with
  | some v => simp
  | none =>
    simp only
    unfold getD0
    cases h2 : lookupW d k2 with
    | some v2 => rw [lookupW_append_of_some _ _ _ _ h2]
    | none =>
      rw [lookupW_append_of_none _ _ _ h2]
      by_cases hk : k = k2 <;> simp [lookupW, hk]

/-- A key found by lookup is in the key list. -/
theorem mem_keysW_of_lookupW (d : Weights) (k : PyObj) (v : Rat)
    (h : lookupW d k = some v) : k ∈ keysW d := by
  induction d with
  | nil => simp [lookupW] at h
  | cons kv rest ih =>
    simp only [lookupW] at h
    simp only [keysW, List.map_cons, List.mem_cons]
    by_cases hk : kv.1 = k
    · exact Or.inl (Eq.symm hk)
    · simp only [if_neg hk] at h
      exact Or.inr (by simpa [keysW] using ih h)

/-- A lookup fails exactly on keys outside the key list. -/
theorem lookupW_eq_none_iff (d : Weights) (k : PyObj) :
    lookupW d k = none ↔ k ∉ keysW d := by
  induction d with
  | nil => simp [lookupW, keysW]
  | cons kv rest ih =>
    simp only [lookupW, keysW, List.map_cons, List.mem_cons]
    by_cases hk : kv.1 = k
    · simp [hk]
    · have hk2 : ¬(k = kv.1) := fun e => hk (Eq.symm e)
      simp only [if_neg hk, not_or, hk2, true_and, ne_eq]
      rw [ih]
      simp [keysW]

/-- Membership in the key list after an assignment. -/
theorem mem_keysW_setW (d : Weights) (k : PyObj) (v : Rat) (k2 : PyObj) :
    k2 ∈ keysW (setW d k v) ↔ k2 = k ∨ k2 ∈ keysW d := by
  induction d with
  | nil => simp [setW, keysW]
  | cons kv rest ih =>
    by_cases hk : kv.1 = k
    · simp [setW, hk, keysW]
    · simp only [setW, if_neg hk, keysW, List.map_cons, List.mem_cons]
      simp only [keysW] at ih
      rw [ih]
      tauto

/-- A materializing read can only grow the key list. -/
theorem mem_keysW_readW_snd (d : Weights) (k k2 : PyObj) (h : k2 ∈ keysW d) :
    k2 ∈ keysW (readW d k).2 := by
  unfold readW
  cases hl : lookupW d k with
  | some v => simpa using h
  | none =>
    simp only [keysW, List.map_append] at h ⊢
    exact List.mem_append_left _ h

/-- A materializing read puts the read key into the key list. -/
theorem self_mem_keysW_readW_snd (d : Weights) (k : PyObj) :
    k ∈ keysW (readW d k).2 := by
  unfold readW
  cases hl : lookupW d k with
  | some v => simpa using mem_keysW_of_lookupW d k v hl
  | none => simp [keysW]

/-- Assigning an absent key appends its entry at the end of the dict. -/
theorem setW_absent (d : Weights) (k : PyObj) (v : Rat)
    (h : lookupW d k = none) : setW d k v = d ++ [(k, v)] := by
  induction d with
  | nil => simp [setW]
  | cons kv rest ih =>
    simp only [lookupW] at h
    by_cases hk : kv.1 = k
    · simp [hk] at h
    · simp only [if_neg hk] at h
      simp [setW, hk, ih h]

/-- Observational effect of one merge iteration d[k] := f d[k] v. -/
theorem getD0_entryStep (f : Rat → Rat → Rat) (d : Weights) (kv : PyObj × Rat)
    (k : PyObj) :
    getD0 (entryStep f d kv) k
      = if kv.1 = k then f (getD0 d kv.1) kv.2 else getD0 d k := by
  unfold entryStep
  by_cases h : kv.1 = k
  · rw [if_pos h, ← h]
    simp [getD0, lookupW_setW_self, readW_fst]
  · rw [if_neg h]
    unfold getD0 at *
    rw [lookupW_setW_ne _ _ _ _ (fun e => h (Eq.symm e))]
    exact getD0_readW_snd d kv.1 k

/-- Observational effect of a whole merge loop, as a fold over the merged
entries. -/
theorem getD0_foldl_entryStep (f : Rat → Rat → Rat) (k : PyObj) :
    ∀ (l : List (PyObj × Rat)) (d : Weights),
      getD0 (l.foldl (entryStep f) d) k
        = l.foldl (fun acc kv => if kv.1 = k then f acc kv.2 else acc) (getD0 d k) := by
  intro l
  induction l with
  | nil => intro d; rfl
  | cons kv rest ih =>
    intro d
    rw [List.foldl_cons, List.foldl_cons, ih, getD0_entryStep]
    by_cases h : kv.1 = k
    · rw [if_pos h, if_pos h, h]
    · rw [if_neg h, if_neg h]

/-- A merge fold over entries whose keys avoid k leaves the accumulator. -/
theorem foldl_ite_of_not_mem (f : Rat → Rat → Rat) (k : PyObj) :
    ∀ (l : Weights) (c : Rat), k ∉ keysW l →
      l.foldl (fun acc kv => if kv.1 = k then f acc kv.2 else acc) c = c := by
  intro l
  induction l with
  | nil => intro c _; rfl
  | cons kv rest ih =>
    intro c h
    simp only [keysW, List.map_cons, List.mem_cons, not_or] at h
    rw [List.foldl_cons, if_neg (fun e => h.1 (Eq.symm e))]
    exact ih c (by simpa [keysW] using h.2)

/-- With unique keys, a merge fold touches k exactly as often as k is stored:
once with the stored value, or never. -/
theorem foldl_ite_nodup (f : Rat → Rat → Rat) (k : PyObj) :
    ∀ (l : Weights) (c : Rat), (keysW l).Nodup →
      l.foldl (fun acc kv => if kv.1 = k then f acc kv.2 else acc) c
        = (match lookupW l k with
           | some v => f c v
           | none => c) := by
  intro l
  induction l with
  | nil => intro c _; rfl
  | cons kv rest ih =>
    intro c hnd
    simp only [keysW, List.map_cons, List.nodup_cons] at hnd
    by_cases h : kv.1 = k
    · rw [List.foldl_cons, if_pos h]
      have hnm : k ∉ keysW rest := by rw [← h]; exact hnd.1
      rw [foldl_ite_of_not_mem f k rest _ hnm]
      simp [lookupW, h]
    · rw [List.foldl_cons, if_neg h, ih c hnd.2]
      simp [lookupW, h]

/-- A dot-product loop never changes any observational weight. -/
theorem getD0_dotAux_snd (y : PyVal) :
    ∀ (xs : List PyVal) (d : Weights) (k : PyObj),
      getD0 (dotAux d xs y).2 k = getD0 d k := by
  intro xs
  induction xs with
  | nil => intro d k; rfl
  | cons x rest ih =>
    intro d k
    simp only [dotAux]
    rw [ih, getD0_readW_snd]

/-- The dot-product loop returns the sum of the observational weights of the
queried pairs on the starting dict, repeats included. -/
theorem dotAux_fst (y : PyVal) :
    ∀ (xs : List PyVal) (d : Weights),
      (dotAux d xs y).1 = (xs.map (fun x => getD0 d (PyObj.tup [x, y]))).sum := by
  intro xs
  induction xs with
  | nil => intro d; simp [dotAux]
  | cons x rest ih =>
    intro d
    simp only [dotAux, List.map_cons, List.sum_cons]
    rw [ih, readW_fst]
    simp only [getD0_readW_snd]

/-- Merging with unique keys combines, at each key, the two observational
weights with the merge operation (f c 0 = c covers the untouched keys). -/
theorem getD0_foldl_merge (f : Rat → Rat → Rat) (hf : ∀ c, f c 0 = c)
    (l d : Weights) (hl : (keysW l).Nodup) (k : PyObj) :
    getD0 (l.foldl (entryStep f) d) k = f (getD0 d k) (getD0 l k) := by
  rw [getD0_foldl_entryStep, foldl_ite_nodup _ _ _ _ hl]
  cases h : lookupW l k with
  | some v => simp [getD0, h]
  | none => simp [getD0, h, hf]

/-- A merge loop keeps every key of either operand. -/
theorem mem_keysW_foldl_entryStep (f : Rat → Rat → Rat) :
    ∀ (l d : Weights) (k : PyObj),
      (k ∈ keysW d ∨ k ∈ keysW l) → k ∈ keysW (l.foldl (entryStep f) d) := by
  intro l
  induction l with
  | nil =>
    intro d k h
    simpa [keysW] using h
  | cons kv rest ih =>
    intro d k h
    rw [List.foldl_cons]
    apply ih
    rcases h with h | h
    · exact Or.inl ((mem_keysW_setW _ _ _ _).mpr (Or.inr (mem_keysW_readW_snd _ _ _ h)))
    · simp only [keysW, List.map_cons, List.mem_cons] at h
      rcases h with h | h
      · exact Or.inl ((mem_keysW_setW _ _ _ _).mpr (Or.inl h))
      · exact Or.inr (by simpa [keysW] using h)

/-- Claim C1: for all vectors a and b (with the dict invariant of unique
keys), add(a, b) is observationally equal to add(b, a); for every key,
add(a,b).get(k) = a.get(k) + b.get(k); and no key present in the second
operand is dropped by a functional add or subtract. -/
theorem claim_C1 (a b : SparseWeightVector)
    (ha : (keysW a.weights).Nodup) (hb : (keysW b.weights).Nodup) :
    (∀ k, (a.add b).weightAt k = (b.add a).weightAt k)
    ∧ (∀ k, (a.add b).weightAt k = a.weightAt k + b.weightAt k)
    ∧ (∀ k, k ∈ keysW b.weights → k ∈ keysW (a.add b).weights)
    ∧ (∀ k, k ∈ keysW b.weights → k ∈ keysW (a.sub b).weights) := by
  have hadd : ∀ (u v : SparseWeightVector), (keysW v.weights).Nodup →
      ∀ k, (u.add v).weightAt k = u.weightAt k + v.weightAt k := by
    intro u v hv k
    exact getD0_foldl_merge _ (fun c => add_zero c) v.weights u.weights hv k
  refine ⟨?_, ?_, ?_, ?_⟩
  · intro k
    rw [hadd a b hb k, hadd b a ha k]
    ring
  · exact hadd a b hb
  · intro k hk
    exact mem_keysW_foldl_entryStep _ b.weights a.weights k (Or.inr hk)
  · intro k hk
    exact mem_keysW_foldl_entryStep _ b.weights a.weights k (Or.inr hk)

/-- Witness for C1 at concrete one-entry vectors with distinct keys. -/
theorem claim_C1_witness :
    SparseWeightVector.weightAt
        (SparseWeightVector.add ⟨[(PyObj.atom (PyAtom.int 1), 2)]⟩
          ⟨[(PyObj.atom (PyAtom.int 2), 3)]⟩)
        (PyObj.atom (PyAtom.int 2))
      = SparseWeightVector.weightAt
        (SparseWeightVector.add ⟨[(PyObj.atom (PyAtom.int 2), 3)]⟩
          ⟨[(PyObj.atom (PyAtom.int 1), 2)]⟩)
        (PyObj.atom (PyAtom.int 2)) :=
  (claim_C1 ⟨[(PyObj.atom (PyAtom.int 1), 2)]⟩ ⟨[(PyObj.atom (PyAtom.int 2), 3)]⟩
    (by decide) (by decide)).1 (PyObj.atom (PyAtom.int 2))

/-- Claim C2: dot(x_keys, y_key) returns the sum over every element x_key of
x_keys of get(x_key, y_key), with repeated occurrences contributing their
weight separately (bag-of-features semantics). -/
theorem claim_C2 (w : SparseWeightVector) (xs : List PyVal) (y : PyVal) :
    (w.dot xs y).1 = (xs.map (fun x => w.weightAt (PyObj.tup [x, y]))).sum :=
  dotAux_fst y xs w.weights

/-- Effect of the code_phi loop on one key, starting from any dict: the
weight grows by the number of occurrences of symbols mapping to that key. -/
theorem getD0_code_phi_fold (y : PyVal) (k : PyObj) :
    ∀ (xs : List PyVal) (d : Weights),
      getD0 (xs.foldl
          (fun d x => entryStep (fun a b => a + b) d (PyObj.tup [x, y], 1)) d) k
        = getD0 d k + ((xs.countP (fun x => decide (PyObj.tup [x, y] = k)) : Nat) : Rat) := by
  intro xs
  induction xs with
  | nil => intro d; simp
  | cons x rest ih =>
    intro d
    rw [List.foldl_cons, ih, getD0_entryStep]
    by_cases h : PyObj.tup [x, y] = k
    · have hc : List.countP (fun x2 => decide (PyObj.tup [x2, y] = k)) (x :: rest)
          = List.countP (fun x2 => decide (PyObj.tup [x2, y] = k)) rest + 1 := by
        apply List.countP_cons_of_pos
        exact decide_eq_true h
      rw [if_pos h, hc, h]
      push_cast
      ring
    · have hc : List.countP (fun x2 => decide (PyObj.tup [x2, y] = k)) (x :: rest)
          = List.countP (fun x2 => decide (PyObj.tup [x2, y] = k)) rest := by
        apply List.countP_cons_of_neg
        simp [h]
      rw [if_neg h, hc]

/-- Claim C3: code_phi(x_keys, y_key) gives, at each key (x, y_key), 1.0
times the number of occurrences of x in x_keys, and weight 0.0 at every
other key. -/
theorem claim_C3 (xs : List PyVal) (y : PyVal) :
    (∀ x, (SparseWeightVector.code_phi xs y).weightAt (PyObj.tup [x, y])
        = ((xs.count x : Nat) : Rat))
    ∧ (∀ k, (∀ x, k ≠ PyObj.tup [x, y])
        → (SparseWeightVector.code_phi xs y).weightAt k = 0) := by
  have key : ∀ k, (SparseWeightVector.code_phi xs y).weightAt k
      = ((xs.countP (fun x => decide (PyObj.tup [x, y] = k)) : Nat) : Rat) := by
    intro k
    have h := getD0_code_phi_fold y k xs []
    simp only [getD0, lookupW, Option.getD_none, zero_add] at h
    exact h
  constructor
  · intro x
    rw [key (PyObj.tup [x, y])]
    norm_cast
    rw [show xs.count x = xs.countP (fun x2 => x2 == x) from rfl]
    apply List.countP_congr
    intro a _
    by_cases hax : a = x
    · simp [hax]
    · simp [hax]
  · intro k hk
    rw [key k]
    have hz : xs.countP (fun x => decide (PyObj.tup [x, y] = k)) = 0 := by
      apply List.countP_eq_zero.mpr
      intro a _
      simp only [decide_eq_true_eq]
      exact fun e => hk a (Eq.symm e)
    rw [hz]
    norm_cast

/-- Witness for C3: a key that is no (x, y_key) pair carries weight zero. -/
theorem claim_C3_witness :
    (SparseWeightVector.code_phi [PyVal.atom (PyAtom.str ['a'])]
        (PyVal.atom (PyAtom.str ['C']))).weightAt (PyObj.atom (PyAtom.int 0)) = 0 :=
  (claim_C3 [PyVal.atom (PyAtom.str ['a'])] (PyVal.atom (PyAtom.str ['C']))).2
    (PyObj.atom (PyAtom.int 0)) (fun x => by simp)

/-- Claim C9: reading a never-set key pair returns 0.0 and, as its only state
effect, materializes the key with value 0.0; no observational get result is
changed by the read, and reads during dot change none either. -/
theorem claim_C9 (w : SparseWeightVector) (x y : PyVal)
    (h : lookupW w.weights (PyObj.tup [x, y]) = none) :
    (w.call x y).1 = 0
    ∧ (w.call x y).2.weights = w.weights ++ [(PyObj.tup [x, y], 0)]
    ∧ (∀ k, (w.call x y).2.weightAt k = w.weightAt k)
    ∧ (∀ xs ys k, (w.dot xs ys).2.weightAt k = w.weightAt k) := by
  refine ⟨?_, ?_, ?_, ?_⟩
  · show (readW w.weights (PyObj.tup [x, y])).1 = 0
    rw [readW_fst]
    simp [getD0, h]
  · show (readW w.weights (PyObj.tup [x, y])).2 = _
    unfold readW
    rw [h]
  · intro k
    exact getD0_readW_snd w.weights (PyObj.tup [x, y]) k
  · intro xs ys k
    exact getD0_dotAux_snd ys xs w.weights k

/-- Witness for C9 on the empty vector: the read returns 0 and stores the
key with weight 0. -/
theorem claim_C9_witness :
    (SparseWeightVector.call ⟨[]⟩ (PyVal.atom (PyAtom.str ['a']))
        (PyVal.atom (PyAtom.str ['B']))).1 = 0
    ∧ (SparseWeightVector.call ⟨[]⟩ (PyVal.atom (PyAtom.str ['a']))
        (PyVal.atom (PyAtom.str ['B']))).2.weights
      = [(PyObj.tup [PyVal.atom (PyAtom.str ['a']), PyVal.atom (PyAtom.str ['B'])], 0)] := by
  have h := claim_C9 ⟨[]⟩ (PyVal.atom (PyAtom.str ['a'])) (PyVal.atom (PyAtom.str ['B'])) rfl
  exact ⟨h.1, h.2.1⟩

/-- Claim C8 (amended): get(x,y) and the setters are total by construction,
but get_by_key succeeds exactly on iterable keys — tuples and strings — and
raises TypeError (modelled as none) on non-iterable hashable atoms. -/
theorem claim_C8 (w : SparseWeightVector) (k : PyObj) :
    (w.getitem k).isSome = true
      ↔ (∃ xs, k = PyObj.tup xs) ∨ (∃ s, k = PyObj.atom (PyAtom.str s)) := by
  cases k with
  | tup xs => simp [SparseWeightVector.getitem, pyTupleOf]
  | atom a =>
    cases a with
    | str s => simp [SparseWeightVector.getitem, pyTupleOf]
    | int n => simp [SparseWeightVector.getitem, pyTupleOf]
    | float q => simp [SparseWeightVector.getitem, pyTupleOf]

/-- Counterexample to C8 as stated: get_by_key on the non-iterable hashable
key 0 raises TypeError (modelled as none) instead of returning a value. -/
theorem claim_C8_counterexample :
    SparseWeightVector.getitem ⟨[]⟩ (PyObj.atom (PyAtom.int 0)) = none := rfl

/-- Witness for C8 at a concrete tuple key. -/
theorem claim_C8_witness :
    (SparseWeightVector.getitem ⟨[]⟩ (PyObj.tup [])).isSome = true :=
  (claim_C8 ⟨[]⟩ (PyObj.tup [])).mpr (Or.inl ⟨[], rfl⟩)

/-- With a nonzero scalar, the division loop is the pure per-entry update. -/
theorem foldlM_divStep_some (s : Rat) (hs : s ≠ 0) :
    ∀ (l : Weights) (d : Weights),
      l.foldlM (divStep s) d = some (l.foldl (entryStep (fun a _ => a / s)) d) := by
  intro l
  induction l with
  | nil => intro d; rfl
  | cons kv rest ih =>
    intro d
    rw [List.foldlM_cons]
    have h : divStep s d kv = some (entryStep (fun a _ => a / s) d kv) := by
      unfold divStep entryStep
      rw [if_neg hs]
    rw [h]
    exact ih _

/-- With scalar zero, the division loop fails on its first entry. -/
theorem foldlM_divStep_zero (l : Weights) (hl : l ≠ []) (d : Weights) :
    l.foldlM (divStep 0) d = none := by
  cases l with
  | nil => exact absurd rfl hl
  | cons kv rest =>
    rw [List.foldlM_cons]
    have h : divStep 0 d kv = none := by
      unfold divStep
      rw [if_pos rfl]
    rw [h]
    rfl

/-- Claim C4 (amended): divide fails with ZeroDivisionError exactly when the
scalar is zero AND the vector has at least one stored entry (an empty vector
divided by zero succeeds, since the loop body never runs); for every nonzero
scalar it succeeds with every observational weight divided by the scalar. -/
theorem claim_C4 (w : SparseWeightVector) (s : Rat)
    (hnd : (keysW w.weights).Nodup) :
    (w.truediv s = none ↔ (s = 0 ∧ w.weights ≠ []))
    ∧ (s ≠ 0 → ∃ w2, w.truediv s = some w2
        ∧ ∀ k, w2.weightAt k = w.weightAt k / s) := by
  constructor
  · constructor
    · intro h
      by_cases hs : s = 0
      · subst hs
        refine ⟨rfl, ?_⟩
        intro hw
        unfold SparseWeightVector.truediv at h
        rw [hw] at h
        simp at h
      · exfalso
        unfold SparseWeightVector.truediv at h
        rw [foldlM_divStep_some s hs] at h
        simp at h
    · rintro ⟨hs, hw⟩
      subst hs
      unfold SparseWeightVector.truediv
      rw [foldlM_divStep_zero w.weights hw]
      rfl
  · intro hs
    refine ⟨⟨w.weights.foldl (entryStep (fun a _ => a / s)) w.weights⟩, ?_, ?_⟩
    · unfold SparseWeightVector.truediv
      rw [foldlM_divStep_some s hs]
      rfl
    · intro k
      show getD0 (w.weights.foldl (entryStep (fun a _ => a / s)) w.weights) k
          = w.weightAt k / s
      rw [getD0_foldl_entryStep]
      have h2 : List.foldl (fun acc kv => if kv.1 = k then acc / s else acc)
          (getD0 w.weights k) w.weights
          = (match lookupW w.weights k with
             | some _ => getD0 w.weights k / s
             | none => getD0 w.weights k) :=
        foldl_ite_nodup (fun a _ => a / s) k w.weights (getD0 w.weights k) hnd
      rw [h2]
      cases h : lookupW w.weights k with
      | some v => simp [SparseWeightVector.weightAt, getD0, h]
      | none => simp [SparseWeightVector.weightAt, getD0, h]

/-- Counterexample to C4 as stated: dividing the empty vector by zero does
not fail — the loop body never runs, so no ZeroDivisionError occurs. -/
theorem claim_C4_counterexample :
    SparseWeightVector.truediv ⟨[]⟩ 0 = some ⟨[]⟩ := rfl

/-- Witness for C4: a nonempty vector divided by zero does fail. -/
theorem claim_C4_witness :
    SparseWeightVector.truediv ⟨[(PyObj.tup [], 4)]⟩ 0 = none :=
  (claim_C4 ⟨[(PyObj.tup [], 4)]⟩ 0 (by decide)).1.mpr ⟨rfl, by simp⟩

/-- The failing lines of load are exactly the malformed ones: zero tokens or
an unparsable last token. -/
theorem malformedLine_iff (l : List Char) :
    malformedLine l = true ↔ parseLineKV l = none := by
  unfold malformedLine parseLineKV
  cases h : splitWs l with
  | nil => simp
  | cons f rest =>
    cases hp : parseFloat ((f :: rest).getLastD []) with
    | none =>
      simp only [hp]
      simp
    | some v =>
      simp only [hp]
      simp

/-- The dict a load loop ends with: the parsed prefix of good lines, folded
into the starting dict. -/
theorem loadAux_fst (lines : List (List Char)) :
    ∀ d, (loadAux lines d).1
      = (lines.takeWhile (fun l => (parseLineKV l).isSome)).foldl setParsed d := by
  induction lines with
  | nil => intro d; rfl
  | cons line rest ih =>
    intro d
    cases h : parseLineKV line with
    | none => simp [loadAux, h, List.takeWhile_cons, setParsed]
    | some kv => simp [loadAux, h, List.takeWhile_cons, setParsed, ih]

/-- A load loop reports failure exactly when some line fails to parse. -/
theorem loadAux_snd (lines : List (List Char)) :
    ∀ d, ((loadAux lines d).2 = false ↔ ∃ l ∈ lines, parseLineKV l = none) := by
  induction lines with
  | nil => intro d; simp [loadAux]
  | cons line rest ih =>
    intro d
    cases h : parseLineKV line with
    | none =>
      simp only [loadAux, h]
      constructor
      · intro _
        exact ⟨line, List.mem_cons_self _ _, h⟩
      · intro _
        trivial
    | some kv =>
      simp only [loadAux, h, List.mem_cons]
      rw [ih (setW d _ _)]
      constructor
      · rintro ⟨l, hl, hp⟩
        exact ⟨l, Or.inr hl, hp⟩
      · rintro ⟨l, hl | hl, hp⟩
        · rw [hl] at hp
          rw [hp] at h
          exact absurd h (by simp)
        · exact ⟨l, hl, hp⟩

/-- Claim C10: load discards the previous contents up front (the result is
the same for every starting vector and built only from the input lines); if
some line fails, the error propagates with the vector holding exactly the
entries parsed from the lines before the first bad one. -/
theorem claim_C10 (u : SparseWeightVector) (lines : List (List Char)) :
    (SparseWeightVector.load u lines).1.weights
      = (lines.takeWhile (fun l => (parseLineKV l).isSome)).foldl setParsed []
    ∧ ((SparseWeightVector.load u lines).2 = false
        ↔ ∃ l ∈ lines, parseLineKV l = none) :=
  ⟨loadAux_fst lines [], loadAux_snd lines []⟩

/-- Witness for C10: a load that fails on its only line leaves an empty dict
regardless of the pre-load contents. -/
theorem claim_C10_witness :
    (SparseWeightVector.load ⟨[(PyObj.tup [], 1)]⟩ [['a']]).2 = false :=
  (claim_C10 ⟨[(PyObj.tup [], 1)]⟩ [['a']]).2.mpr
    ⟨['a'], List.mem_cons_self _ _, by decide⟩

/-- Claim C5 (amended): load fails exactly when some line has zero
whitespace tokens or a last token float() rejects; in particular a line with
a single numeric token does NOT fail — it stores the empty key tuple. -/
theorem claim_C5 (u : SparseWeightVector) (lines : List (List Char)) :
    ((SparseWeightVector.load u lines).2 = false
      ↔ ∃ l ∈ lines, malformedLine l = true) := by
  constructor
  · intro h
    obtain ⟨l, hl, hp⟩ := (loadAux_snd lines []).mp h
    exact ⟨l, hl, (malformedLine_iff l).mpr hp⟩
  · rintro ⟨l, hl, hm⟩
    exact (loadAux_snd lines []).mpr ⟨l, hl, (malformedLine_iff l).mp hm⟩

/-- Counterexample to C5 as stated: a line holding the single numeric token
3.5 has fewer than 2 whitespace tokens, yet load succeeds on it, storing
value 3.5 under the empty key tuple. -/
theorem claim_C5_counterexample :
    SparseWeightVector.load ⟨[]⟩ [['3', '.', '5']]
      = (⟨[(PyObj.tup [], (7 : Rat) / 2)]⟩, true) := by
  with_unfolding_all decide

/-- Witness for C5: the line "a b" fails, since its last token b is not
numeric. -/
theorem claim_C5_witness :
    (SparseWeightVector.load ⟨[]⟩ [['a', ' ', 'b']]).2 = false :=
  (claim_C5 ⟨[]⟩ [['a', ' ', 'b']]).mpr
    ⟨['a', ' ', 'b'], List.mem_cons_self _ _, by decide⟩

/-- A mapM whose function succeeds pointwise is the corresponding map. -/
theorem mapM_eq_map_of_some {α β : Type} (f : α → Option β) (g : α → β) :
    ∀ (l : List α), (∀ a ∈ l, f a = some (g a)) → l.mapM f = some (l.map g) := by
  intro l
  induction l with
  | nil => intro _; rfl
  | cons a rest ih =>
    intro h
    rw [List.mapM_cons, h a (List.mem_cons_self _ _),
      ih (fun b hb => h b (List.mem_cons_of_mem _ hb))]
    rfl

/-- Claim C6 (amended): save emits exactly one line per stored entry — the
string components of the key in order, then the str-rendered value — when
every component of every stored key is an atomic string; when an x_key is
itself a tuple, ' '.join raises TypeError instead of flattening it, so save
fails on such entries. -/
theorem claim_C6 (w : SparseWeightVector)
    (h : ∀ kv ∈ w.weights, (strComponents kv.1).isSome = true) :
    w.save = some (w.weights.map
      (fun kv => joinSpace ((strComponents kv.1).getD [] ++ [strFloat kv.2]))) := by
  apply mapM_eq_map_of_some
  intro kv hkv
  have h2 := h kv hkv
  unfold saveLine
  cases hc : strComponents kv.1 with
  | none =>
    rw [hc] at h2
    simp at h2
  | some ss => rfl

/-- Counterexample to C6 as stated: an entry whose x_key is the tuple
('a','b') of symbols makes save raise TypeError — it is never flattened. -/
theorem claim_C6_counterexample :
    SparseWeightVector.save
      ⟨[(PyObj.tup [PyVal.tup [PyAtom.str ['a'], PyAtom.str ['b']],
          PyVal.atom (PyAtom.str ['C'])], 1)]⟩ = none := rfl

/-- Witness for C6: one atomic-string entry saves to the line a B 1.5. -/
theorem claim_C6_witness :
    SparseWeightVector.save
      ⟨[(PyObj.tup [PyVal.atom (PyAtom.str ['a']), PyVal.atom (PyAtom.str ['B'])],
         (3 : Rat) / 2)]⟩
      = some [['a', ' ', 'B', ' ', '1', '.', '5']] := by
  refine Eq.trans (claim_C6 _ (by decide)) ?_
  with_unfolding_all decide

/-- The tokenizer consumes a whitespace-free chunk into its accumulator. -/
theorem splitWsAux_no_ws (t : List Char) (ht : ∀ c ∈ t, isWs c = false) :
    ∀ (rest acc : List Char), splitWsAux (t ++ rest) acc = splitWsAux rest (t.reverse ++ acc) := by
  induction t with
  | nil => intro rest acc; simp
  | cons c t2 ih =>
    intro rest acc
    have hc : isWs c = false := ht c (List.mem_cons_self _ _)
    show splitWsAux (c :: (t2 ++ rest)) acc = _
    simp only [splitWsAux, hc, Bool.false_eq_true, if_false]
    rw [ih (fun c2 h2 => ht c2 (List.mem_cons_of_mem _ h2)) rest (c :: acc)]
    simp

/-- A whitespace character flushes a nonempty accumulator as one token. -/
theorem splitWsAux_ws (c : Char) (hc : isWs c = true) (rest : List Char)
    (a : Char) (as : List Char) :
    splitWsAux (c :: rest) (a :: as) = (a :: as).reverse :: splitWsAux rest [] := by
  simp [splitWsAux, hc]

/-- Round trip: splitting a space-join of nonempty whitespace-free tokens
recovers exactly those tokens. -/
theorem splitWs_joinSpace :
    ∀ (ts : List (List Char)),
      (∀ t ∈ ts, t ≠ [] ∧ ∀ c ∈ t, isWs c = false) →
      splitWs (joinSpace ts) = ts := by
  intro ts
  induction ts with
  | nil => intro _; rfl
  | cons t ts2 ih =>
    intro h
    obtain ⟨ht1, ht2⟩ := h t (List.mem_cons_self _ _)
    cases ts2 with
    | nil =>
      unfold splitWs
      rw [show joinSpace [t] = t from rfl]
      have e := splitWsAux_no_ws t ht2 [] []
      rw [List.append_nil, List.append_nil] at e
      rw [e]
      cases hrev : t.reverse with
      | nil =>
        exfalso
        apply ht1
        simpa using congrArg List.reverse hrev
      | cons a as =>
        show [(a :: as).reverse] = [t]
        rw [← hrev, List.reverse_reverse]
    | cons t2 ts3 =>
      unfold splitWs
      rw [show joinSpace (t :: t2 :: ts3) = t ++ ' ' :: joinSpace (t2 :: ts3) from rfl]
      have e := splitWsAux_no_ws t ht2 (' ' :: joinSpace (t2 :: ts3)) []
      rw [List.append_nil] at e
      rw [e]
      cases hrev : t.reverse with
      | nil =>
        exfalso
        apply ht1
        simpa using congrArg List.reverse hrev
      | cons a as =>
        rw [splitWsAux_ws ' ' (by decide) _ a as]
        rw [← hrev, List.reverse_reverse]
        have ih2 := ih (fun u hu => h u (List.mem_cons_of_mem _ hu))
        unfold splitWs at ih2
        rw [ih2]

/-- Characterisation of the modelled whitespace characters. -/
theorem isWs_iff (c : Char) :
    isWs c = true ↔ (c = ' ' ∨ c = '\t' ∨ c = '\n' ∨ c = '\r' ∨ c = '\x0b' ∨ c = '\x0c') := by
  unfold isWs
  simp only [Bool.or_eq_true, beq_iff_eq]
  tauto

/-- digitChar yields decimal digit characters below 10. -/
theorem digitChar_isDigit : ∀ r, r < 10 → (digitChar r).isDigit = true := by decide

/-- The digit accumulator only ever holds decimal digit characters. -/
theorem natDigitsAux_digits :
    ∀ (fuel n : Nat) (acc : List Char), (∀ c ∈ acc, c.isDigit = true) →
      ∀ c ∈ natDigitsAux fuel n acc, c.isDigit = true := by
  intro fuel
  induction fuel with
  | zero =>
    intro n acc h
    simpa [natDigitsAux] using h
  | succ f ih =>
    intro n acc h
    cases n with
    | zero => simpa [natDigitsAux] using h
    | succ m =>
      simp only [natDigitsAux]
      apply ih
      intro c hc
      rcases List.mem_cons.mp hc with hc | hc
      · rw [hc]
        exact digitChar_isDigit _ (Nat.mod_lt _ (by norm_num))
      · exact h c hc

/-- Every character of a rendered natural number is a decimal digit. -/
theorem natDigits_digits (n : Nat) : ∀ c ∈ natDigits n, c.isDigit = true := by
  unfold natDigits
  by_cases h : n = 0
  · simp only [h, if_true]
    intro c hc
    simp at hc
    rw [hc]
    decide
  · simp only [if_neg h]
    exact natDigitsAux_digits n n [] (by simp)

/-- Every character of a rendered float is a digit, a point, or a minus. -/
theorem strFloat_chars (q : Rat) :
    ∀ c ∈ strFloat q, c.isDigit = true ∨ c = '.' ∨ c = '-' := by
  unfold strFloat
  cases hf : fracLen q.den with
  | none =>
    intro c hc
    simp only [List.mem_cons, List.not_mem_nil, or_false] at hc
    rcases hc with rfl | rfl | rfl
    · left; decide
    · right; left; rfl
    · left; decide
  | some k =>
    intro c hc
    rcases List.mem_append.mp hc with hc1 | hdot
    · rcases List.mem_append.mp hc1 with hsign | hip
      · split at hsign
        · right; right; simpa using hsign
        · simp at hsign
      · have hc2 := List.mem_of_mem_take hip
        left
        split at hc2
        · rcases List.mem_append.mp hc2 with hc3 | hc3
          · rw [List.eq_of_mem_replicate hc3]; decide
          · exact natDigits_digits _ c hc3
        · exact natDigits_digits _ c hc2
    · rcases List.mem_cons.mp hdot with rfl | hfp
      · right; left; rfl
      · left
        split at hfp
        · split at hfp
          · rw [show c = '0' from by simpa using hfp]
            decide
          · have hc2 := List.mem_of_mem_drop hfp
            rcases List.mem_append.mp hc2 with hc3 | hc3
            · rw [List.eq_of_mem_replicate hc3]; decide
            · exact natDigits_digits _ c hc3
        · split at hfp
          · rw [show c = '0' from by simpa using hfp]
            decide
          · exact natDigits_digits _ c (List.mem_of_mem_drop hfp)

/-- A rendered float never contains whitespace. -/
theorem strFloat_no_ws (q : Rat) : ∀ c ∈ strFloat q, isWs c = false := by
  intro c hc
  cases hw : isWs c
  · rfl
  · exfalso
    rcases strFloat_chars q c hc with h | h | h
    · rcases (isWs_iff c).mp hw with e | e | e | e | e | e <;>
        (subst e; exact absurd h (by decide))
    · subst h
      exact absurd hw (by decide)
    · subst h
      exact absurd hw (by decide)

/-- A rendered float is never the empty string. -/
theorem strFloat_ne_nil (q : Rat) : strFloat q ≠ [] := by
  unfold strFloat
  cases hf : fracLen q.den with
  | none => simp
  | some k => simp

/-- An okToken is nonempty and whitespace-free. -/
theorem okToken_spec (s : List Char) (h : okToken s = true) :
    s ≠ [] ∧ ∀ c ∈ s, isWs c = false := by
  unfold okToken at h
  rw [Bool.and_eq_true] at h
  constructor
  · intro e
    rw [e] at h
    simp at h
  · intro c hc
    have h2 := List.all_eq_true.mp h.2 c hc
    simpa using h2

/-- Inversion for atomicStrKey: the key is a pair of good string atoms. -/
theorem atomicStrKey_spec (k : PyObj) (h : atomicStrKey k = true) :
    ∃ x y, k = PyObj.tup [PyVal.atom (PyAtom.str x), PyVal.atom (PyAtom.str y)]
      ∧ okToken x = true ∧ okToken y = true := by
  unfold atomicStrKey at h
  split at h
  · next _ x y =>
    rw [Bool.and_eq_true] at h
    exact ⟨x, y, rfl, h.1, h.2⟩
  · exact absurd h (by simp)

/-- A saved line of two key tokens and a parsable value token parses back
to exactly that entry. -/
theorem parseLineKV_of_tokens (x y fv : List Char)
    (hx : okToken x = true) (hy : okToken y = true)
    (hfv1 : fv ≠ []) (hfv2 : ∀ c ∈ fv, isWs c = false) (v : Rat)
    (hparse : parseFloat fv = some v) :
    parseLineKV (joinSpace [x, y, fv])
      = some (PyObj.tup [PyVal.atom (PyAtom.str x), PyVal.atom (PyAtom.str y)], v) := by
  have hsplit : splitWs (joinSpace [x, y, fv]) = [x, y, fv] := by
    apply splitWs_joinSpace
    intro t ht
    rcases (by simpa using ht : t = x ∨ t = y ∨ t = fv) with rfl | rfl | rfl
    · exact okToken_spec _ hx
    · exact okToken_spec _ hy
    · exact ⟨hfv1, hfv2⟩
  unfold parseLineKV
  rw [hsplit]
  show (match parseFloat fv with
        | none => none
        | some v2 =>
          some (PyObj.tup [PyVal.atom (PyAtom.str x), PyVal.atom (PyAtom.str y)], v2))
      = some (PyObj.tup [PyVal.atom (PyAtom.str x), PyVal.atom (PyAtom.str y)], v)
  rw [hparse]

/-- A load loop over lines that all parse stores every parsed entry in
order and succeeds. -/
theorem loadAux_map (lineOf : (PyObj × Rat) → List Char)
    (es : List (PyObj × Rat)) :
    (∀ kv ∈ es, parseLineKV (lineOf kv) = some kv) →
    ∀ d, loadAux (es.map lineOf) d
      = (es.foldl (fun d2 kv => setW d2 kv.1 kv.2) d, true) := by
  induction es with
  | nil => intro _ d; rfl
  | cons kv rest ih =>
    intro h d
    simp only [List.map_cons, loadAux, h kv (List.mem_cons_self _ _)]
    exact ih (fun u hu => h u (List.mem_cons_of_mem _ hu)) _

/-- Assigning fresh distinct keys in order just appends the entries. -/
theorem foldl_setW_disjoint :
    ∀ (es : List (PyObj × Rat)) (d : Weights),
      (keysW es).Nodup → (∀ k ∈ keysW es, k ∉ keysW d) →
      es.foldl (fun d2 kv => setW d2 kv.1 kv.2) d = d ++ es := by
  intro es
  induction es with
  | nil => intro d _ _; simp
  | cons kv rest ih =>
    intro d hnd hdisj
    have hnd2 : kv.1 ∉ keysW rest ∧ (keysW rest).Nodup := by
      simpa [keysW] using hnd
    simp only [List.foldl_cons]
    have hk : kv.1 ∉ keysW d := hdisj kv.1 (List.mem_cons_self _ _)
    have hset : setW d kv.1 kv.2 = d ++ [(kv.1, kv.2)] :=
      setW_absent d kv.1 kv.2 ((lookupW_eq_none_iff d kv.1).mpr hk)
    rw [hset, show ((kv.1, kv.2) : PyObj × Rat) = kv from rfl]
    rw [ih (d ++ [kv]) hnd2.2 ?_]
    · simp
    · intro k hk2
      intro hmem
      have hmem2 : k ∈ keysW d ∨ k = kv.1 := by
        simpa [keysW] using hmem
      rcases hmem2 with hm | hm
      · exact hdisj k (List.mem_cons_of_mem _ hk2) hm
      · rw [hm] at hk2
        exact hnd2.1 hk2

/-- Claim C7: for a vector whose keys are pairs of atomic whitespace-free
string tokens (with the dict invariant of unique keys) and whose values
survive the str/float formatting round trip exactly — the formalisation of
the claim's floating-point formatting tolerance — saving and then loading
the emitted lines into any vector reconstructs a vector with the very same
stored entries, hence identical get results on every original key. -/
theorem claim_C7 (w : SparseWeightVector)
    (h1 : ∀ kv ∈ w.weights, atomicStrKey kv.1 = true)
    (h2 : ∀ kv ∈ w.weights, parseFloat (strFloat kv.2) = some kv.2)
    (h3 : (keysW w.weights).Nodup) :
    ∃ lines, w.save = some lines
      ∧ ∀ u : SparseWeightVector, SparseWeightVector.load u lines = (w, true) := by
  refine ⟨w.weights.map
      (fun kv => joinSpace ((strComponents kv.1).getD [] ++ [strFloat kv.2])), ?_, ?_⟩
  · apply mapM_eq_map_of_some
    intro kv hkv
    obtain ⟨x, y, hk, hx, hy⟩ := atomicStrKey_spec kv.1 (h1 kv hkv)
    unfold saveLine
    rw [hk]
    rfl
  · intro u
    have hparse : ∀ kv ∈ w.weights,
        parseLineKV (joinSpace ((strComponents kv.1).getD [] ++ [strFloat kv.2]))
          = some kv := by
      intro kv hkv
      obtain ⟨x, y, hk, hx, hy⟩ := atomicStrKey_spec kv.1 (h1 kv hkv)
      rw [hk]
      have hp := parseLineKV_of_tokens x y (strFloat kv.2) hx hy
        (strFloat_ne_nil kv.2) (strFloat_no_ws kv.2) kv.2 (h2 kv hkv)
      show parseLineKV (joinSpace [x, y, strFloat kv.2]) = some kv
      rw [hp, ← hk]
    have hl := loadAux_map
      (fun kv => joinSpace ((strComponents kv.1).getD [] ++ [strFloat kv.2]))
      w.weights hparse []
    rw [foldl_setW_disjoint w.weights [] h3 (by simp [keysW])] at hl
    rw [List.nil_append] at hl
    unfold SparseWeightVector.load
    simp only [hl]

/-- Witness for C7 at a concrete one-entry vector with value 1.5. -/
theorem claim_C7_witness :
    ∃ lines,
      SparseWeightVector.save
        ⟨[(PyObj.tup [PyVal.atom (PyAtom.str ['a']), PyVal.atom (PyAtom.str ['B'])],
           (3 : Rat) / 2)]⟩ = some lines
      ∧ SparseWeightVector.load ⟨[]⟩ lines
          = (⟨[(PyObj.tup [PyVal.atom (PyAtom.str ['a']), PyVal.atom (PyAtom.str ['B'])],
              (3 : Rat) / 2)]⟩, true) := by
  obtain ⟨lines, hs, hl⟩ := claim_C7
    ⟨[(PyObj.tup [PyVal.atom (PyAtom.str ['a']), PyVal.atom (PyAtom.str ['B'])],
       (3 : Rat) / 2)]⟩
    (by decide) (by with_unfolding_all decide) (by decide)
  exact ⟨lines, hs, hl ⟨[]⟩⟩
